import Mathlib

/-!
Verification development for the hackcwru-2025 DSP firmware (two C++
translation units: a 192 kHz carrier-modulator `main.cpp` and a 96 kHz
per-channel modulator unit).  Floating-point arithmetic of the source is
embedded as exact arithmetic over `ℚ` (and over `ℝ` where the source
computes transcendental values); the library sine/cosine called by the
source are external functions and appear either abstractly (`sine`
parameters) or as `Real.cos`/`Real.pi` where their exact values matter.
-/

set_option maxRecDepth 4000

/-- Embedding of `struct SimpleBiquad` (identical in both translation
units): five normalized coefficients and two delay slots, defaulting to
`b0 = 1`, all others `0`. -/
structure SimpleBiquad where
  b0 : ℚ := 1
  b1 : ℚ := 0
  b2 : ℚ := 0
  a1 : ℚ := 0
  a2 : ℚ := 0
  z1 : ℚ := 0
  z2 : ℚ := 0
deriving DecidableEq, Repr

/-- Embedding of `SimpleBiquad::Process`: returns the output sample and the
updated filter state (transposed direct-form II update). -/
def SimpleBiquad.Process (bq : SimpleBiquad) (x : ℚ) : ℚ × SimpleBiquad :=
  let y := bq.b0 * x + bq.z1
  (y, { bq with
          z1 := bq.b1 * x - bq.a1 * y + bq.z2
          z2 := bq.b2 * x - bq.a2 * y })

/-- Feeding a whole input list through one biquad, collecting the outputs
and the final state. -/
def SimpleBiquad.processList (bq : SimpleBiquad) : List ℚ → List ℚ × SimpleBiquad
  | [] => ([], bq)
  | x :: xs =>
      let p := bq.Process x
      let r := p.2.processList xs
      (p.1 :: r.1, r.2)

/-- The default-constructed biquad, as written in both source files. -/
def defaultBiquad : SimpleBiquad := {}

/- ### Rate bridge (main.cpp, 192 kHz unit) -/

/-- The mutable state touched by the sample-and-hold block of
`AudioCallback` in `main.cpp`: the two baseband filters, the countdown
`in_hold_count` and the held filtered sample `filtered_held`. -/
structure BridgeState where
  hp10 : SimpleBiquad
  lp20k : SimpleBiquad
  in_hold_count : ℤ
  filtered_held : ℚ
deriving DecidableEq, Repr

/-- One per-sample pass of the hold logic in `AudioCallback` (main.cpp
lines 101-117): when input is present and the countdown has run out, the
countdown is reloaded to `hold_factor`, the input sample is filtered
through `hp10` then `lp20k` and held, and the countdown is decremented;
when input is present but the countdown is positive, it is only
decremented; when no input is connected the held value is forced to 0. -/
def bridgeStep (hold_factor : ℤ) (have_in : Bool) (x : ℚ) (s : BridgeState) :
    BridgeState :=
  if have_in then
    if s.in_hold_count ≤ 0 then
      let p1 := s.hp10.Process x
      let p2 := s.lp20k.Process p1.1
      { hp10 := p1.2, lp20k := p2.2,
        in_hold_count := hold_factor - 1, filtered_held := p2.1 }
    else
      { s with in_hold_count := s.in_hold_count - 1 }
  else
    { s with filtered_held := 0 }

/-- The bridge state right after `setup()` with identity (default)
filters: countdown 0, held value 0. -/
def bridgeInit : BridgeState :=
  { hp10 := {}, lp20k := {}, in_hold_count := 0, filtered_held := 0 }

/-- Running the hold logic over a block with a connected input, observing
the held value used by `out[1]` at each tick. -/
def bridgeRun (hold_factor : ℤ) (s : BridgeState) : List ℚ → List ℚ × BridgeState
  | [] => ([], s)
  | x :: xs =>
      let s1 := bridgeStep hold_factor true x s
      let r := bridgeRun hold_factor s1 xs
      (s1.filtered_held :: r.1, r.2)

/-- The trajectory of bridge states over an input stream delivered with a
connected input, tick by tick, starting from the initialized state. -/
def bridgeStateAt (hold_factor : ℤ) (inputs : ℕ → ℚ) : ℕ → BridgeState
  | 0 => bridgeInit
  | i + 1 => bridgeStep hold_factor true (inputs i) (bridgeStateAt hold_factor inputs i)

/-- The countdown value alone evolves independently of the samples and of
the filter states. -/
def bridgeCount (hold_factor : ℤ) : ℕ → ℤ
  | 0 => 0
  | i + 1 =>
      if bridgeCount hold_factor i ≤ 0 then hold_factor - 1
      else bridgeCount hold_factor i - 1

lemma bridgeStateAt_count (h : ℤ) (inputs : ℕ → ℚ) :
    ∀ i, (bridgeStateAt h inputs i).in_hold_count = bridgeCount h i := by
  intro i
  induction i with
  | zero => rfl
  | succ i ih =>
      simp only [bridgeStateAt, bridgeCount, bridgeStep, ← ih]
      by_cases hc : (bridgeStateAt h inputs i).in_hold_count ≤ 0 <;>
        simp [hc]

lemma bridgeCount_closed (h : ℤ) (hh : 1 ≤ h) :
    ∀ i : ℕ, bridgeCount h i =
      if (i : ℤ) % h = 0 then 0 else h - (i : ℤ) % h := by
  intro i
  induction i with
  | zero => simp [bridgeCount]
  | succ i ih =>
      have hr0 : 0 ≤ (i : ℤ) % h := Int.emod_nonneg _ (by omega)
      have hrlt : (i : ℤ) % h < h := Int.emod_lt_of_pos _ (by omega)
      have hsucc : ((i : ℤ) + 1) % h = ((i : ℤ) % h + 1) % h := by
        conv_lhs => rw [← Int.ediv_add_emod (i : ℤ) h]
        rw [add_assoc, add_comm (h * ((i : ℤ) / h)) _, Int.add_mul_emod_self_left]
      rw [bridgeCount, ih]
      push_cast
      rw [hsucc]
      by_cases hz : (i : ℤ) % h = 0
      · rw [hz]
        norm_num
        rcases eq_or_lt_of_le hh with h1 | h2
        · rw [← h1]
          norm_num
        · have hnd : ¬ ((h : ℤ) ∣ 1) := by
            intro hd
            have := Int.le_of_dvd one_pos hd
            omega
          simp [hnd, Int.emod_eq_of_lt (by norm_num : (0:ℤ) ≤ 1) h2]
      · have hnle : ¬ h - (i : ℤ) % h ≤ 0 := by omega
        simp only [hz, if_false, hnle]
        by_cases htop : (i : ℤ) % h = h - 1
        · have h1 : ((i : ℤ) % h + 1) % h = 0 := by
            rw [htop]
            simp
          rw [h1]
          simp
          omega
        · have h1 : ((i : ℤ) % h + 1) % h = (i : ℤ) % h + 1 :=
            Int.emod_eq_of_lt (by omega) (by omega)
          rw [h1]
          have h2 : ¬ (i : ℤ) % h + 1 = 0 := by omega
          simp only [h2, if_false]
          ring

lemma bridgeCount_le_zero_iff (h : ℤ) (hh : 1 ≤ h) (i : ℕ) :
    bridgeCount h i ≤ 0 ↔ (i : ℤ) % h = 0 := by
  rw [bridgeCount_closed h hh i]
  have hr0 : 0 ≤ (i : ℤ) % h := Int.emod_nonneg _ (by omega)
  have hrlt : (i : ℤ) % h < h := Int.emod_lt_of_pos _ (by omega)
  by_cases hz : (i : ℤ) % h = 0
  · simp [hz]
  · rw [if_neg hz]
    have h1 : 1 ≤ h - (i : ℤ) % h := by omega
    constructor
    · intro hle
      omega
    · intro h0
      exact absurd h0 hz

/-- C1. RateBridge sample-and-hold: with hold factor 2, countdown starting
at 0 and identity filters, the held values observed over the input block
[1,2,3,4] are [1,1,3,3]; moreover for any hold factor h ≥ 1 and any input
stream, the tick-i pass re-samples the input (i.e. finds the countdown ≤ 0)
exactly when h divides i — in particular the first tick (i = 0) always
re-samples. -/
theorem rateBridge_hold_spec (h : ℤ) (hh : 1 ≤ h) (inputs : ℕ → ℚ) (i : ℕ) :
    (bridgeRun 2 bridgeInit [1, 2, 3, 4]).1 = [1, 1, 3, 3] ∧
      ((bridgeStateAt h inputs i).in_hold_count ≤ 0 ↔ (i : ℤ) % h = 0) := by
  constructor
  · norm_num [bridgeRun, bridgeStep, bridgeInit, SimpleBiquad.Process]
  · rw [bridgeStateAt_count, bridgeCount_le_zero_iff h hh]

/-- Witness for C1 at the concrete hold factor 2 and ticks 0: the theorem
applies with its hypothesis discharged numerically. -/
theorem rateBridge_hold_spec_witness :
    (bridgeRun 2 bridgeInit [1, 2, 3, 4]).1 = [1, 1, 3, 3] ∧
      ((bridgeStateAt 2 (fun _ => 0) 2).in_hold_count ≤ 0 ↔ (2 : ℤ) % 2 = 0) :=
  rateBridge_hold_spec 2 (by norm_num) (fun _ => 0) 2

lemma default_biquad_process (x : ℚ) :
    defaultBiquad.Process x = (x, defaultBiquad) := by
  simp [defaultBiquad, SimpleBiquad.Process]

/-- C10. A default-constructed SimpleBiquad is an identity pass-through:
each Process call returns its input unchanged and leaves the (zero) delay
state unchanged, hence any input list is returned verbatim. -/
theorem default_biquad_identity (x : ℚ) (xs : List ℚ) :
    defaultBiquad.Process x = (x, defaultBiquad) ∧
      defaultBiquad.processList xs = (xs, defaultBiquad) := by
  refine ⟨default_biquad_process x, ?_⟩
  induction xs with
  | nil => rfl
  | cons y ys ih =>
      simp only [SimpleBiquad.processList, default_biquad_process, ih]

/- ### Phase-accumulator oscillators -/

/-- One per-sample advance-and-wrap of a carrier phase accumulator, as both
translation units write it: `carrier_phase += inc; if (carrier_phase >
2π) carrier_phase -= 2π`.  Phases are measured in units of π throughout,
so one period is `period = 2`; the source's strict `>` comparison is kept. -/
def phaseWrapStep (inc period p : ℚ) : ℚ :=
  if period < p + inc then p + inc - period else p + inc

/-- One per-sample advance-and-wrap of the normalized sine phase of
main.cpp: `tri_phase += inc; if (tri_phase >= 1.0f) tri_phase -= 1.0f`. -/
def triWrapStep (inc p : ℚ) : ℚ :=
  if 1 ≤ p + inc then p + inc - 1 else p + inc

/-- Carrier phase (in units of π) after n ticks starting from 0.  In
main.cpp the increment is 2·80000/192000 = 5/6 of π; in the second unit
it is 2·39500/96000 = 79/96 of π. -/
def carrierPhaseAt (inc : ℚ) : ℕ → ℚ
  | 0 => 0
  | n + 1 => phaseWrapStep inc 2 (carrierPhaseAt inc n)

/-- Normalized sine phase after n ticks starting from 0 (main.cpp:
increment 1000/192000 = 1/192). -/
def triPhaseAt (inc : ℚ) : ℕ → ℚ
  | 0 => 0
  | n + 1 => triWrapStep inc (triPhaseAt inc n)

lemma phaseWrapStep_bounds {inc period p : ℚ} (h0 : 0 ≤ inc) (h1 : inc ≤ period)
    (hp0 : 0 ≤ p) (hp1 : p ≤ period) :
    0 ≤ phaseWrapStep inc period p ∧ phaseWrapStep inc period p ≤ period := by
  unfold phaseWrapStep
  by_cases h : period < p + inc
  · rw [if_pos h]
    constructor
    · linarith
    · linarith
  · rw [if_neg h]
    push_neg at h
    constructor
    · linarith
    · linarith

lemma triWrapStep_bounds {inc p : ℚ} (h0 : 0 ≤ inc) (h1 : inc < 1)
    (hp0 : 0 ≤ p) (hp1 : p < 1) :
    0 ≤ triWrapStep inc p ∧ triWrapStep inc p < 1 := by
  unfold triWrapStep
  by_cases h : 1 ≤ p + inc
  · rw [if_pos h]
    constructor
    · linarith
    · linarith
  · rw [if_neg h]
    push_neg at h
    constructor
    · linarith
    · linarith

lemma carrierPhaseAt_bounds (inc : ℚ) (h0 : 0 ≤ inc) (h1 : inc ≤ 2) :
    ∀ n, 0 ≤ carrierPhaseAt inc n ∧ carrierPhaseAt inc n ≤ 2 := by
  intro n
  induction n with
  | zero => norm_num [carrierPhaseAt]
  | succ n ih =>
      rw [carrierPhaseAt]
      exact phaseWrapStep_bounds h0 h1 ih.1 ih.2

lemma triPhaseAt_bounds (inc : ℚ) (h0 : 0 ≤ inc) (h1 : inc < 1) :
    ∀ n, 0 ≤ triPhaseAt inc n ∧ triPhaseAt inc n < 1 := by
  intro n
  induction n with
  | zero => norm_num [triPhaseAt]
  | succ n ih =>
      rw [triPhaseAt]
      exact triWrapStep_bounds h0 h1 ih.1 ih.2

/-- C4 counterexample.  With main.cpp's constants (80 kHz carrier at a
192 kHz output rate, per-tick increment 5/6 of π), the carrier phase lands
exactly on one full period after 12 ticks: because the source wraps only
on the strict comparison `carrier_phase > 2π`, the phase is not wrapped
there and the claimed bound `carrier_phase < 2π` fails. -/
theorem carrier_phase_reaches_period :
    carrierPhaseAt (2 * 80000 / 192000) 12 = 2 ∧
      ¬ carrierPhaseAt (2 * 80000 / 192000) 12 < 2 := by
  have h : carrierPhaseAt (2 * 80000 / 192000) 12 = 2 := by
    norm_num [carrierPhaseAt, phaseWrapStep]
  refine ⟨h, ?_⟩
  rw [h]
  exact lt_irrefl 2

/-- C4 amended.  Starting from phase 0, the normalized sine phase of
main.cpp stays in [0, 1) for every number of ticks, and the carrier phase
of both units stays in the closed interval [0, 2π] (equality 2π is
attainable, so the half-open bound must be weakened to the closed one);
every step either leaves the accumulated phase alone or subtracts exactly
one period from it — never a reset to zero, never modulo truncation. -/
theorem phase_confinement_amended :
    (∀ n, 0 ≤ carrierPhaseAt (2 * 80000 / 192000) n ∧
        carrierPhaseAt (2 * 80000 / 192000) n ≤ 2) ∧
    (∀ n, 0 ≤ carrierPhaseAt (2 * 39500 / 96000) n ∧
        carrierPhaseAt (2 * 39500 / 96000) n ≤ 2) ∧
    (∀ n, 0 ≤ triPhaseAt (1000 / 192000) n ∧ triPhaseAt (1000 / 192000) n < 1) ∧
    (∀ inc period p : ℚ, phaseWrapStep inc period p = p + inc ∨
        phaseWrapStep inc period p = p + inc - period) ∧
    (∀ inc p : ℚ, triWrapStep inc p = p + inc ∨ triWrapStep inc p = p + inc - 1) := by
  refine ⟨carrierPhaseAt_bounds _ (by norm_num) (by norm_num),
          carrierPhaseAt_bounds _ (by norm_num) (by norm_num),
          triPhaseAt_bounds _ (by norm_num) (by norm_num), ?_, ?_⟩
  · intro inc period p
    unfold phaseWrapStep
    by_cases h : period < p + inc
    · rw [if_pos h]
      right
      rfl
    · rw [if_neg h]
      left
      rfl
  · intro inc p
    unfold triWrapStep
    by_cases h : 1 ≤ p + inc
    · rw [if_pos h]
      right
      rfl
    · rw [if_neg h]
      left
      rfl

/- ### Rate-bridge sizing at initialization (main.cpp `setup`) -/

/-- Embedding of `kInputMaxSrHz = 96000.0f`. -/
def kInputMaxSrHz : ℚ := 96000

/-- Embedding of `lroundf`: round to nearest, halves away from zero. -/
def lroundQ (q : ℚ) : ℤ :=
  if 0 ≤ q then ⌊q + 1 / 2⌋ else ⌈q - 1 / 2⌉

/-- Embedding of the rate-bridge sizing in `setup()` (main.cpp lines
143-147): the input rate is the output rate capped at 96 kHz, and the hold
factor is `lround(ratio)` when that rounding is within 0.01 of the ratio
and at least 1, else 1.  Returns `(input_sr_hz, hold_factor)`. -/
def computeBridge (sample_rate_hz : ℚ) : ℚ × ℤ :=
  let input_sr_hz := if kInputMaxSrHz < sample_rate_hz then kInputMaxSrHz else sample_rate_hz
  let ratio := sample_rate_hz / input_sr_hz
  let hf := lroundQ ratio
  (input_sr_hz, if |ratio - (hf : ℚ)| < 1 / 100 ∧ 1 ≤ hf then hf else 1)

lemma lroundQ_eq_of_near {q : ℚ} {k : ℤ} (hk : 1 ≤ k) (h : |q - (k : ℚ)| < 1 / 2) :
    lroundQ q = k := by
  rw [abs_sub_lt_iff] at h
  have hk1 : (1 : ℚ) ≤ (k : ℚ) := by exact_mod_cast hk
  have hq0 : 0 ≤ q := by linarith [h.2]
  unfold lroundQ
  rw [if_pos hq0, Int.floor_eq_iff]
  constructor
  · linarith [h.2]
  · linarith [h.1]

lemma computeBridge_input_sr (sr : ℚ) (hsr : 0 < sr) :
    0 < (computeBridge sr).1 ∧ (computeBridge sr).1 ≤ sr := by
  unfold computeBridge
  by_cases h : kInputMaxSrHz < sr
  · rw [if_pos h]
    constructor
    · norm_num [kInputMaxSrHz]
    · exact le_of_lt h
  · rw [if_neg h]
    exact ⟨hsr, le_refl sr⟩

lemma computeBridge_ratio_ge_one (sr : ℚ) (hsr : 0 < sr) :
    1 ≤ sr / (computeBridge sr).1 := by
  obtain ⟨h1, h2⟩ := computeBridge_input_sr sr hsr
  rw [one_le_div h1]
  exact h2

/-- C5. RateBridge sizing: for any positive output rate, the hold factor
computed by `setup()` is at least 1; it equals `lround(ratio)` exactly when
the ratio `outputRate / inputRate` lies within 0.01 of some integer, and
defaults to 1 when it is within 0.01 of no integer; with the 192 kHz
output rate and the 96 kHz input cap the computed pair is exactly
(96000, 2). -/
theorem rateBridge_sizing (sr : ℚ) (hsr : 0 < sr) :
    1 ≤ (computeBridge sr).2 ∧
    ((∃ k : ℤ, |sr / (computeBridge sr).1 - (k : ℚ)| < 1 / 100) →
        (computeBridge sr).2 = lroundQ (sr / (computeBridge sr).1)) ∧
    ((∀ k : ℤ, ¬ |sr / (computeBridge sr).1 - (k : ℚ)| < 1 / 100) →
        (computeBridge sr).2 = 1) ∧
    computeBridge 192000 = (96000, 2) := by
  have hratio : 1 ≤ sr / (computeBridge sr).1 := computeBridge_ratio_ge_one sr hsr
  have hfst : (computeBridge sr).1 =
      if kInputMaxSrHz < sr then kInputMaxSrHz else sr := rfl
  have hsnd : (computeBridge sr).2 =
      if |sr / (computeBridge sr).1 - (lroundQ (sr / (computeBridge sr).1) : ℚ)| < 1 / 100
          ∧ 1 ≤ lroundQ (sr / (computeBridge sr).1)
        then lroundQ (sr / (computeBridge sr).1) else 1 := by
    rw [hfst]
    rfl
  refine ⟨?_, ?_, ?_, ?_⟩
  · rw [hsnd]
    by_cases hg : |sr / (computeBridge sr).1 - (lroundQ (sr / (computeBridge sr).1) : ℚ)| < 1 / 100
        ∧ 1 ≤ lroundQ (sr / (computeBridge sr).1)
    · rw [if_pos hg]
      exact hg.2
    · rw [if_neg hg]
  · rintro ⟨k, hk⟩
    have hk1 : 1 ≤ k := by
      rw [abs_sub_lt_iff] at hk
      have hq : (0 : ℚ) < (k : ℚ) := by linarith [hk.2]
      have hz : (0 : ℤ) < k := by exact_mod_cast hq
      omega
    have hround : lroundQ (sr / (computeBridge sr).1) = k :=
      lroundQ_eq_of_near hk1 (lt_trans hk (by norm_num))
    rw [hsnd, hround, if_pos ⟨hk, hk1⟩]
  · intro hall
    rw [hsnd]
    by_cases hg : |sr / (computeBridge sr).1 - (lroundQ (sr / (computeBridge sr).1) : ℚ)| < 1 / 100
        ∧ 1 ≤ lroundQ (sr / (computeBridge sr).1)
    · exact absurd hg.1 (hall _)
    · rw [if_neg hg]
  · have hr2 : lroundQ (2 : ℚ) = 2 :=
      lroundQ_eq_of_near (by norm_num) (by norm_num)
    unfold computeBridge
    rw [if_pos (by norm_num [kInputMaxSrHz] : kInputMaxSrHz < (192000 : ℚ))]
    norm_num [kInputMaxSrHz, hr2]

/-- Witness for C5 at the concrete 192 kHz output rate. -/
theorem rateBridge_sizing_witness :
    1 ≤ (computeBridge 192000).2 ∧
    ((∃ k : ℤ, |(192000 : ℚ) / (computeBridge 192000).1 - (k : ℚ)| < 1 / 100) →
        (computeBridge 192000).2 = lroundQ ((192000 : ℚ) / (computeBridge 192000).1)) ∧
    ((∀ k : ℤ, ¬ |(192000 : ℚ) / (computeBridge 192000).1 - (k : ℚ)| < 1 / 100) →
        (computeBridge 192000).2 = 1) ∧
    computeBridge 192000 = (96000, 2) :=
  rateBridge_sizing 192000 (by norm_num)

/- ### Modulator combiners -/

/-- Embedding of `kModDepth = 1.0f` (second unit). -/
def kModDepth : ℚ := 1

/-- Embedding of `kCarrierLevel = 0.5f` (second unit). -/
def kCarrierLevel : ℚ := 1 / 2

/-- Embedding of `kBasebandGain = 1.0f` (second unit). -/
def kBasebandGain : ℚ := 1

/-- Embedding of `kOutGain = 0.6f * 0.5f` (main.cpp). -/
def kOutGain : ℚ := (6 / 10) * (5 / 10)

/-- The carrier-present AM combiner of the second unit (line 276):
`(kCarrierLevel + kModDepth * kBasebandGain * x) * carrier`. -/
def modSchemeB (x carrier : ℚ) : ℚ :=
  (kCarrierLevel + kModDepth * kBasebandGain * x) * carrier

/-- The value main.cpp writes to the second output channel (line 132):
`kOutGain * (filtered_held * carrier)`. -/
def out1Sample (filtered_held carrier : ℚ) : ℚ :=
  kOutGain * (filtered_held * carrier)

/-- C6. Carrier-present AM modulator floor: with carrierLevel = 0.5,
depth = 1 and baseband gain = 1, whenever the filtered baseband sample is
0 the combiner produces exactly 0.5 times the carrier. -/
theorem am_carrier_floor (x carrier : ℚ) (hx : x = 0) :
    modSchemeB x carrier = 1 / 2 * carrier := by
  rw [hx]
  norm_num [modSchemeB, kCarrierLevel, kModDepth, kBasebandGain]

/-- Witness for C6 at a concrete carrier value. -/
theorem am_carrier_floor_witness : modSchemeB 0 7 = 1 / 2 * 7 :=
  am_carrier_floor 0 7 rfl

/-- C7 counterexample.  With held sample 1 and carrier 1 the value written
to output channel 1 is 0.3, not the plain product 1 × 1 = 1: the write
includes the fixed headroom gain `kOutGain = 0.6 * 0.5`. -/
theorem out1_not_plain_product :
    out1Sample 1 1 = 3 / 10 ∧ ¬ out1Sample 1 1 = 1 * 1 := by
  constructor
  · norm_num [out1Sample, kOutGain]
  · norm_num [out1Sample, kOutGain]

/-- C7 amended.  The value written to the second output channel is the
suppressed-carrier product of the held filtered baseband sample and the
carrier scaled by the constant output gain 0.3 = 0.6 × 0.5: it is
proportional to baseband × carrier and carries no additive carrier term. -/
theorem out1_scaled_product (filtered_held carrier : ℚ) :
    out1Sample filtered_held carrier = 3 / 10 * (filtered_held * carrier) := by
  unfold out1Sample kOutGain
  ring

/- ### Input-channel presence (both units) -/

/-- The harness's input argument: `none` embeds a null channel-pointer
array, and per channel `none` embeds a null channel pointer. -/
def InputBuffers : Type := Option (Fin 2 → Option (ℕ → ℚ))

/-- The selected channel's buffer, if the pointer array and the channel
pointer are both present. -/
def channelBuf (ins : InputBuffers) (ch : Fin 2) : Option (ℕ → ℚ) :=
  match ins with
  | none => none
  | some a => a ch

/-- Embedding of `(in != nullptr) && (in[ch] != nullptr)`. -/
def haveIn (ins : InputBuffers) (ch : Fin 2) : Bool :=
  (channelBuf ins ch).isSome

/-- Embedding of `have_in ? in[ch][i] : 0.0f`: the per-sample value the
second unit feeds into its filter chain. -/
def inputSample (ins : InputBuffers) (ch : Fin 2) (i : ℕ) : ℚ :=
  match channelBuf ins ch with
  | none => 0
  | some f => f i

/-- C8. A missing input is silence: whenever the channel-pointer array is
null or the selected channel pointer is null, `have_in` is false, the
rate-bridged variant forces the held value to 0 on every sample (whatever
stale value and countdown it held before), and the per-channel variant
feeds 0 into its filter chain. -/
theorem null_input_is_silence (hf : ℤ) (ins : InputBuffers)
    (hnull : ins = none ∨ ∃ a, ins = some a ∧ a 0 = none)
    (s : BridgeState) (x : ℚ) (i : ℕ) :
    haveIn ins 0 = false ∧
      (bridgeStep hf (haveIn ins 0) x s).filtered_held = 0 ∧
      inputSample ins 0 i = 0 := by
  have hfalse : haveIn ins 0 = false := by
    rcases hnull with h | ⟨a, ha, ha0⟩
    · rw [h]
      rfl
    · rw [ha]
      simp [haveIn, channelBuf, ha0]
  have hbuf : channelBuf ins 0 = none := by
    simpa [haveIn, Option.isSome_iff_exists] using hfalse
  refine ⟨hfalse, ?_, ?_⟩
  · rw [hfalse]
    rfl
  · simp [inputSample, hbuf]

/-- Witness for C8 at the concrete null pointer array. -/
theorem null_input_is_silence_witness :
    haveIn none 0 = false ∧
      (bridgeStep 2 (haveIn none 0) 5 bridgeInit).filtered_held = 0 ∧
      inputSample none 0 3 = 0 :=
  null_input_is_silence 2 none (Or.inl rfl) bridgeInit 5 3

/- ### Hilbert transformer state (second unit) -/

/-- The mutable state `ProcessHilbert` touches for one channel: the
256-slot ring array and the shared ring index `hilbert_index`. -/
structure HilbertState where
  state : Fin 256 → ℚ
  index : Fin 256

/-- Embedding of `ProcessHilbert` (second unit, lines 220-236): writes x
into slot `hilbert_index`, accumulates the tap sum while walking the array
circularly downward from `hilbert_index`, and returns the sum and the
updated state.  The source never increments `hilbert_index` — neither here
nor anywhere else — so the returned index equals the incoming one. -/
def ProcessHilbert (coeffs : Fin 256 → ℚ) (x : ℚ) (hs : HilbertState) :
    ℚ × HilbertState :=
  let st := Function.update hs.state hs.index x
  (∑ i : Fin 256, coeffs i * st (hs.index - i), { state := st, index := hs.index })

/-- The Hilbert state right after `InitHilbertCoeffs`: all-zero array,
index 0. -/
def hilbertInit : HilbertState := { state := fun _ => 0, index := 0 }

/-- The state left by the call sequence ProcessHilbert(1), ProcessHilbert(2)
from the initialized state (the coefficient table is irrelevant to the
state evolution). -/
def hilbertAfterTwo : HilbertState :=
  (ProcessHilbert (fun _ => 0) 2 ((ProcessHilbert (fun _ => 0) 1 hilbertInit).2)).2

/-- C2 (code bug).  `ProcessHilbert` never advances `hilbert_index`, so the
ring buffer never rotates: after the two calls ProcessHilbert(1),
ProcessHilbert(2) from the initialized state, the index is still 0 and the
state array is the all-zero array with only slot 0 written — it holds the
single sample 2, and the older sample 1 has been overwritten instead of
being retained as one of the two most recent samples. -/
theorem hilbert_index_never_advances :
    (∀ (coeffs : Fin 256 → ℚ) (x : ℚ) (hs : HilbertState),
        ((ProcessHilbert coeffs x hs).2).index = hs.index) ∧
      hilbertAfterTwo.index = 0 ∧
      hilbertAfterTwo.state = Function.update (fun _ => 0) (0 : Fin 256) 2 := by
  refine ⟨fun coeffs x hs => rfl, rfl, ?_⟩
  show Function.update (Function.update (fun _ => 0) (0 : Fin 256) 1) 0 2 =
    Function.update (fun _ => 0) (0 : Fin 256) 2
  exact Function.update_idem 1 2 (fun _ => 0)

/- ### Per-channel modulator callback (second unit) -/

/-- One channel's bank of biquad instances in the second unit (the `_l`
bank or the `_r` bank): no instance is shared between the channels. -/
structure ChannelFilters where
  base_hpf : SimpleBiquad
  base_lpf : SimpleBiquad
  low_shelf : SimpleBiquad
  bandpass_hpf : SimpleBiquad
  bandpass_lpf : SimpleBiquad
  bandpass_lpf2 : SimpleBiquad
  post_hpf : SimpleBiquad
  post_hpf2 : SimpleBiquad

/-- One channel's per-sample pipeline in the second unit's AudioCallback
(lines 259-283): baseband highpass then lowpass, low shelf, AM combine
with the shared carrier, bandpass triple, post highpass pair.  Returns the
output sample and the updated filter bank. -/
def channelSample (c : ChannelFilters) (x0 carrier : ℚ) : ℚ × ChannelFilters :=
  let p1 := c.base_hpf.Process x0
  let p2 := c.base_lpf.Process p1.1
  let p3 := c.low_shelf.Process p2.1
  let m := modSchemeB p3.1 carrier
  let p4 := c.bandpass_hpf.Process m
  let p5 := c.bandpass_lpf.Process p4.1
  let p6 := c.bandpass_lpf2.Process p5.1
  let p7 := c.post_hpf.Process p6.1
  let p8 := c.post_hpf2.Process p7.1
  (p8.1, { base_hpf := p1.2, base_lpf := p2.2, low_shelf := p3.2,
           bandpass_hpf := p4.2, bandpass_lpf := p5.2, bandpass_lpf2 := p6.2,
           post_hpf := p7.2, post_hpf2 := p8.2 })

/-- The state of the second unit's AudioCallback: one filter bank per
channel plus the shared carrier phase (in units of π). -/
structure DuoState where
  left : ChannelFilters
  right : ChannelFilters
  carrier_phase : ℚ

/-- One iteration of the second unit's sample loop: compute the shared
carrier from the phase, advance and wrap the phase, and run both per-channel
pipelines on their respective input samples.  `sine` is the external
library sine, taken abstractly. -/
def duoStep (sine : ℚ → ℚ) (inc : ℚ) (s : DuoState) (x y : ℚ) :
    (ℚ × ℚ) × DuoState :=
  let carrier := sine s.carrier_phase
  let l := channelSample s.left x carrier
  let r := channelSample s.right y carrier
  ((l.1, r.1), { left := l.2, right := r.2,
                 carrier_phase := phaseWrapStep inc 2 s.carrier_phase })

/-- The second unit's AudioCallback over a block of n frames starting at
frame index i: the two output streams and the final state. -/
def duoRun (sine : ℚ → ℚ) (inc : ℚ) (ins : InputBuffers) (s : DuoState) :
    ℕ → ℕ → List ℚ × List ℚ × DuoState
  | _, 0 => ([], [], s)
  | i, n + 1 =>
      let st := duoStep sine inc s (inputSample ins 0 i) (inputSample ins 1 i)
      let rest := duoRun sine inc ins st.2 (i + 1) n
      (st.1.1 :: rest.1, st.1.2 :: rest.2.1, rest.2.2)

/-- The left channel's output stream recomputed from the left filter bank,
the shared phase and the channel-0 input alone. -/
def leftRun (sine : ℚ → ℚ) (inc : ℚ) (xf : ℕ → ℚ) :
    ChannelFilters → ℚ → ℕ → ℕ → List ℚ
  | _, _, _, 0 => []
  | c, ph, i, n + 1 =>
      let l := channelSample c (xf i) (sine ph)
      l.1 :: leftRun sine inc xf l.2 (phaseWrapStep inc 2 ph) (i + 1) n

/-- The right channel's output stream recomputed from the right filter
bank, the shared phase and the channel-1 input alone. -/
def rightRun (sine : ℚ → ℚ) (inc : ℚ) (yf : ℕ → ℚ) :
    ChannelFilters → ℚ → ℕ → ℕ → List ℚ
  | _, _, _, 0 => []
  | c, ph, i, n + 1 =>
      let r := channelSample c (yf i) (sine ph)
      r.1 :: rightRun sine inc yf r.2 (phaseWrapStep inc 2 ph) (i + 1) n

lemma duoRun_fst (sine : ℚ → ℚ) (inc : ℚ) (ins : InputBuffers) :
    ∀ (n : ℕ) (s : DuoState) (i : ℕ),
      (duoRun sine inc ins s i n).1 =
        leftRun sine inc (inputSample ins 0) s.left s.carrier_phase i n := by
  intro n
  induction n with
  | zero =>
      intro s i
      rfl
  | succ n ih =>
      intro s i
      simp only [duoRun, leftRun, duoStep]
      rw [ih]

lemma duoRun_snd (sine : ℚ → ℚ) (inc : ℚ) (ins : InputBuffers) :
    ∀ (n : ℕ) (s : DuoState) (i : ℕ),
      (duoRun sine inc ins s i n).2.1 =
        rightRun sine inc (inputSample ins 1) s.right s.carrier_phase i n := by
  intro n
  induction n with
  | zero =>
      intro s i
      rfl
  | succ n ih =>
      intro s i
      simp only [duoRun, rightRun, duoStep]
      rw [ih]

/-- C9. Channel noninterference in the second unit's AudioCallback: two
runs from the same initial state whose inputs agree on channel 0 write the
same stream to output channel 0 whatever their channel-1 inputs are, and
symmetrically output channel 1 does not depend on input channel 0 — no
filter state is shared between channels, and the shared carrier phase
advances independently of the inputs. -/
theorem channel_noninterference (sine : ℚ → ℚ) (inc : ℚ) (s : DuoState)
    (ins ins₁ : InputBuffers) (i n : ℕ) :
    ((∀ j, inputSample ins 0 j = inputSample ins₁ 0 j) →
        (duoRun sine inc ins s i n).1 = (duoRun sine inc ins₁ s i n).1) ∧
    ((∀ j, inputSample ins 1 j = inputSample ins₁ 1 j) →
        (duoRun sine inc ins s i n).2.1 = (duoRun sine inc ins₁ s i n).2.1) := by
  constructor
  · intro hagree
    rw [duoRun_fst, duoRun_fst, funext hagree]
  · intro hagree
    rw [duoRun_snd, duoRun_snd, funext hagree]

/- ### Hilbert coefficient table (second unit, InitHilbertCoeffs) -/

/-- Embedding of `kHilbertCenter = (kHilbertTaps - 1) / 2` with
`kHilbertTaps = 256`: integer division gives 127. -/
def kHilbertCenter : ℕ := (256 - 1) / 2

lemma kHilbertCenter_eq : kHilbertCenter = 127 := rfl

/-- The ideal-kernel factor of `InitHilbertCoeffs` (lines 202-203): zero
at even offsets n = i − center, `2/(π·n)` at odd offsets. -/
noncomputable def hilbertIdeal (i : ℕ) : ℝ :=
  if ((i : ℤ) - (kHilbertCenter : ℤ)) % 2 = 0 then 0
  else 2 / (Real.pi * (((i : ℤ) - (kHilbertCenter : ℤ) : ℤ) : ℝ))

/-- The four-term Blackman-Harris window of `InitHilbertCoeffs` (lines
204-208), evaluated at t = i/(kHilbertTaps − 1) = i/255. -/
noncomputable def hilbertWindow (i : ℕ) : ℝ :=
  0.35875 - 0.48829 * Real.cos (2 * Real.pi * ((i : ℝ) / 255))
    + 0.14128 * Real.cos (4 * Real.pi * ((i : ℝ) / 255))
    - 0.01168 * Real.cos (6 * Real.pi * ((i : ℝ) / 255))

/-- Embedding of the coefficient table entry `hilbert_coeffs[i]` written by
`InitHilbertCoeffs` (lines 193-210): 0 at the center tap, otherwise the
ideal kernel value apodized by the window. -/
noncomputable def hilbertCoeff (i : ℕ) : ℝ :=
  if (i : ℤ) - (kHilbertCenter : ℤ) = 0 then 0
  else hilbertIdeal i * hilbertWindow i

lemma hilbertWindow_diff_pos : hilbertWindow 126 < hilbertWindow 128 := by
  have hpi := Real.pi_pos
  unfold hilbertWindow
  push_cast
  have hA : (2 : ℝ) * Real.pi * (128 / 255) = Real.pi / 255 + Real.pi := by ring
  have hB : (4 : ℝ) * Real.pi * (128 / 255) = 2 * Real.pi / 255 + 2 * Real.pi := by
    ring
  have hC : (6 : ℝ) * Real.pi * (128 / 255) =
      (3 * Real.pi / 255 + Real.pi) + 2 * Real.pi := by ring
  have hD : (2 : ℝ) * Real.pi * (126 / 255) = Real.pi - 3 * Real.pi / 255 := by
    ring
  have hE : (4 : ℝ) * Real.pi * (126 / 255) = 2 * Real.pi - 6 * Real.pi / 255 := by
    ring
  have hF : (6 : ℝ) * Real.pi * (126 / 255) =
      (Real.pi - 9 * Real.pi / 255) + 2 * Real.pi := by ring
  rw [hA, Real.cos_add_pi, hB, Real.cos_add_two_pi, hC, Real.cos_add_two_pi,
    Real.cos_add_pi, hD, Real.cos_pi_sub, hE, Real.cos_two_pi_sub, hF,
    Real.cos_add_two_pi, Real.cos_pi_sub]
  have m1 : Real.cos (3 * Real.pi / 255) < Real.cos (Real.pi / 255) :=
    Real.cos_lt_cos_of_nonneg_of_le_pi (by positivity) (by linarith) (by linarith)
  have m2 : Real.cos (6 * Real.pi / 255) < Real.cos (2 * Real.pi / 255) :=
    Real.cos_lt_cos_of_nonneg_of_le_pi (by positivity) (by linarith) (by linarith)
  have m3 : Real.cos (9 * Real.pi / 255) < Real.cos (3 * Real.pi / 255) :=
    Real.cos_lt_cos_of_nonneg_of_le_pi (by positivity) (by linarith) (by linarith)
  linarith

lemma hilbertCoeff_128 : hilbertCoeff 128 = 2 / Real.pi * hilbertWindow 128 := by
  rw [hilbertCoeff, hilbertIdeal, kHilbertCenter_eq]
  norm_num

lemma hilbertCoeff_126 : hilbertCoeff 126 = -(2 / Real.pi) * hilbertWindow 126 := by
  rw [hilbertCoeff, hilbertIdeal, kHilbertCenter_eq]
  norm_num
  ring

/-- C3 counterexample.  The coefficient table is not antisymmetric about
the center tap 127: already at offset 1, hilbert_coeffs[128] differs from
-hilbert_coeffs[126], because the Blackman-Harris window is centered at
(kHilbertTaps−1)/2 = 127.5 while the ideal kernel is antisymmetric about
tap 127, so the two taps carry different window weights; concretely the
sum hilbert_coeffs[126] + hilbert_coeffs[128] is strictly positive where
antisymmetry would force it to be 0. -/
theorem hilbert_coeffs_asymmetric_at_offset_one :
    0 < hilbertCoeff 126 + hilbertCoeff 128 ∧
      ¬ hilbertCoeff 128 = -hilbertCoeff 126 := by
  have hpi := Real.pi_pos
  have hw : hilbertWindow 126 < hilbertWindow 128 := hilbertWindow_diff_pos
  have hpos : (0 : ℝ) < 2 / Real.pi := by positivity
  have key : 0 < 2 / Real.pi * (hilbertWindow 128 - hilbertWindow 126) :=
    mul_pos hpos (by linarith)
  have expand : 2 / Real.pi * (hilbertWindow 128 - hilbertWindow 126) =
      2 / Real.pi * hilbertWindow 128 - 2 / Real.pi * hilbertWindow 126 := by
    ring
  rw [expand] at key
  have hsum : 0 < hilbertCoeff 126 + hilbertCoeff 128 := by
    rw [hilbertCoeff_126, hilbertCoeff_128]
    linarith
  refine ⟨hsum, fun heq => ?_⟩
  rw [heq] at hsum
  simp at hsum

/-- C3 amended.  What does hold of the table: the center tap 127 is exactly
zero, every even-offset tap is exactly zero on both sides of the center,
and the ideal-kernel factor (before windowing) is exactly antisymmetric
about the center; the windowed table itself is only approximately
antisymmetric (see the offset-1 counterexample). -/
lemma hilbertCoeff_eval (i : ℕ) :
    hilbertCoeff i =
      if (i : ℤ) - 127 = 0 then 0 else hilbertIdeal i * hilbertWindow i := by
  rw [hilbertCoeff]
  simp only [kHilbertCenter_eq, Nat.cast_ofNat]

lemma hilbertIdeal_eval (i : ℕ) :
    hilbertIdeal i =
      if ((i : ℤ) - 127) % 2 = 0 then 0
      else 2 / (Real.pi * (((i : ℤ) - 127 : ℤ) : ℝ)) := by
  rw [hilbertIdeal]
  simp only [kHilbertCenter_eq, Nat.cast_ofNat]

theorem hilbert_coeffs_shape (n : ℕ) (hn : n ≤ 127) :
    hilbertCoeff kHilbertCenter = 0 ∧
      (n % 2 = 0 → hilbertCoeff (127 + n) = 0 ∧ hilbertCoeff (127 - n) = 0) ∧
      hilbertIdeal (127 + n) = -hilbertIdeal (127 - n) := by
  have hcast : ((127 - n : ℕ) : ℤ) = 127 - (n : ℤ) := by
    have : (n : ℤ) ≤ 127 := by exact_mod_cast hn
    omega
  have hm1 : ((127 + n : ℕ) : ℤ) - 127 = (n : ℤ) := by
    push_cast
    ring
  have hm2 : ((127 - n : ℕ) : ℤ) - 127 = -(n : ℤ) := by
    rw [hcast]
    ring
  refine ⟨?_, ?_, ?_⟩
  · rw [hilbertCoeff_eval]
    simp [kHilbertCenter_eq]
  · intro hev
    have hev2 : ((n : ℤ)) % 2 = 0 := by omega
    constructor
    · rw [hilbertCoeff_eval, hm1]
      by_cases hz : (n : ℤ) = 0
      · rw [if_pos hz]
      · rw [if_neg hz, hilbertIdeal_eval, hm1, if_pos hev2, zero_mul]
    · rw [hilbertCoeff_eval, hm2]
      by_cases hz : -(n : ℤ) = 0
      · rw [if_pos hz]
      · have hev3 : (-(n : ℤ)) % 2 = 0 := by omega
        rw [if_neg hz, hilbertIdeal_eval, hm2, if_pos hev3, zero_mul]
  · rw [hilbertIdeal_eval, hilbertIdeal_eval, hm1, hm2]
    by_cases hp : ((n : ℤ)) % 2 = 0
    · have hp2 : (-(n : ℤ)) % 2 = 0 := by omega
      rw [if_pos hp, if_pos hp2, neg_zero]
    · have hp2 : ¬ (-(n : ℤ)) % 2 = 0 := by omega
      rw [if_neg hp, if_neg hp2]
      push_cast
      ring

/-- Witness for C3's amended theorem at the concrete even offset 2. -/
theorem hilbert_coeffs_shape_witness :
    hilbertCoeff kHilbertCenter = 0 ∧
      (2 % 2 = 0 → hilbertCoeff (127 + 2) = 0 ∧ hilbertCoeff (127 - 2) = 0) ∧
      hilbertIdeal (127 + 2) = -hilbertIdeal (127 - 2) :=
  hilbert_coeffs_shape 2 (by norm_num)
